import Mathlib

/-!
Shallow embedding of the galpynostatic C kernels `run_map`
(src/galpynostatic/lib/map.cpp) and `run_profile`
(src/galpynostatic/lib/profile.cpp): the per-point derived quantities, the
Crank-Nicolson stepping with Thomas elimination, the two
equilibrium-potential models, the voltage-cutoff loop, the profile sampling
bookkeeping, and the parallel grid sweep.  C doubles are modelled as real
numbers; the unbounded C `while` loop is modelled with an explicit fuel
argument, `none` meaning the loop has not exited within that many body
executions.
-/

namespace Galpynostatic

open Real List

noncomputable section

open Classical

/-- Physical constant faraday (map.cpp line 22, profile.cpp line 23). -/
def faraday : ℝ := 96484.5561

/-- Physical constant gas_constant (map.cpp line 23). -/
def gas_constant : ℝ := 8.314472

/-- Hours-to-seconds factor t_hour (map.cpp line 24). -/
def t_hour : ℝ := 3600.0

/-- The scalar and array inputs shared by one simulation run; the spline
arrays and breakpoints are modelled as total functions on indices. -/
structure SimParams where
  model : Bool
  g_pot : ℝ
  grid_size : ℕ
  time_steps : ℕ
  isotherm_len : ℕ
  temperature : ℝ
  mass : ℝ
  density : ℝ
  vcut : ℝ
  specific_capacity : ℝ
  geometry_param : ℝ
  spl_ai : ℕ → ℝ
  spl_bi : ℕ → ℝ
  spl_ci : ℕ → ℝ
  spl_di : ℕ → ℝ
  soc_eq : ℕ → ℝ

/-- rfaraday = gas_constant * temperature / faraday (map.cpp line 25). -/
def rfaraday (q : SimParams) : ℝ := gas_constant * q.temperature / faraday

/-- The derived per-point quantities computed at the top of both kernels. -/
structure Derived where
  c_rate : ℝ
  particle_size : ℝ
  surface_area : ℝ
  ccd : ℝ
  maximum_capacity : ℝ
  time_step : ℝ
  space_step : ℝ

/-- c_rate = t_hour * (geometry_param - 1) / pow(pow(10, logxi), 2)
(map.cpp lines 38-39, profile.cpp line 28). -/
def c_rateF (q : SimParams) (logxi : ℝ) : ℝ :=
  t_hour * (q.geometry_param - 1) / ((10 : ℝ) ^ logxi) ^ 2

/-- run_map particle size: 2.0 * sqrt(pow(10, logell) * geometry_param *
t_hour / c_rate) (map.cpp lines 41-44). -/
def particle_size_map (q : SimParams) (logell logxi : ℝ) : ℝ :=
  2.0 * Real.sqrt ((10 : ℝ) ^ logell * q.geometry_param * t_hour / c_rateF q logxi)

/-- run_profile particle size: 2.0 * sqrt(pow(10, logell) * 2.0 * t_hour /
c_rate); the factor is the literal 2.0, not geometry_param
(profile.cpp lines 30-31). -/
def particle_size_prof (q : SimParams) (logell logxi : ℝ) : ℝ :=
  2.0 * Real.sqrt ((10 : ℝ) ^ logell * 2.0 * t_hour / c_rateF q logxi)

/-- The derived quantities of run_map for one grid point
(map.cpp lines 38-59). -/
def mapDerived (q : SimParams) (logell logxi : ℝ) : Derived :=
  let c_rate := c_rateF q logxi
  let particle_size := particle_size_map q logell logxi
  let surface_area := 2.0 * q.geometry_param * q.mass / (q.density * particle_size)
  let ccd := -c_rate * q.specific_capacity * q.mass / (1000.0 * surface_area)
  let maximum_capacity := q.specific_capacity * q.density * 3.6 / faraday
  let time_step :=
    -q.specific_capacity * q.mass * 3.6 / (ccd * surface_area) / ((q.time_steps : ℝ) - 1)
  let space_step := 0.5 * particle_size / ((q.grid_size : ℝ) - 1)
  ⟨c_rate, particle_size, surface_area, ccd, maximum_capacity, time_step, space_step⟩

/-- The derived quantities of run_profile for its single point
(profile.cpp lines 28-43); only the particle size formula differs from
run_map. -/
def profDerived (q : SimParams) (logell logxi : ℝ) : Derived :=
  let c_rate := c_rateF q logxi
  let particle_size := particle_size_prof q logell logxi
  let surface_area := 2.0 * q.geometry_param * q.mass / (q.density * particle_size)
  let ccd := -c_rate * q.specific_capacity * q.mass / (1000.0 * surface_area)
  let maximum_capacity := q.specific_capacity * q.density * 3.6 / faraday
  let time_step :=
    -q.specific_capacity * q.mass * 3.6 / (ccd * surface_area) / ((q.time_steps : ℝ) - 1)
  let space_step := 0.5 * particle_size / ((q.grid_size : ℝ) - 1)
  ⟨c_rate, particle_size, surface_area, ccd, maximum_capacity, time_step, space_step⟩

/-- The tabulated-isotherm segment scan (map.cpp lines 115-137,
profile.cpp lines 100-122): starting from index `i` with the accumulated
else-branch assignment `acc`, return the (ai, bi, ci, di, socd) values the
loop leaves behind.  Each non-matching index overwrites the accumulator
with the last segment before moving on, exactly as the C else branch. -/
def splineScan (q : SimParams) (s : ℝ) : ℕ → ℝ × ℝ × ℝ × ℝ × ℝ → ℝ × ℝ × ℝ × ℝ × ℝ
  | i, acc =>
    if _h : i < q.isotherm_len then
      if q.soc_eq i ≤ s ∧ s < q.soc_eq (i + 1) then
        (q.spl_ai i, q.spl_bi i, q.spl_ci i, q.spl_di i, q.soc_eq i)
      else
        splineScan q s (i + 1)
          (q.spl_ai (q.isotherm_len - 1), q.spl_bi (q.isotherm_len - 1),
            q.spl_ci (q.isotherm_len - 1), q.spl_di (q.isotherm_len - 1),
            q.soc_eq (q.isotherm_len - 1))
    else acc
  termination_by i _ => q.isotherm_len - i

/-- Equilibrium potential pot_eq of the surface SOC `s`: Frumkin model when
`model` is true, spline lookup otherwise (map.cpp lines 106-142,
profile.cpp lines 93-127). -/
def potEq (q : SimParams) (s : ℝ) : ℝ :=
  if q.model then
    rfaraday q * (q.g_pot * (0.5 - s) + Real.log ((1.0 - s) / s))
  else
    match splineScan q s 0 (0, 0, 0, 0, 0) with
    | (ai, bi, ci, di, socd) =>
      let dsocs := s - socd
      di + ci * dsocs + bi * dsocs * dsocs + ai * dsocs * dsocs * dsocs

/-- Exchange current density i0 at surface SOC `s` (map.cpp lines 144-146). -/
def i0F (d : Derived) (s : ℝ) : ℝ :=
  faraday * d.maximum_capacity * Real.sqrt (s * (1.0 - s))

/-- Instantaneous voltage pot_i of a field (map.cpp line 148): equilibrium
potential of the surface node plus the Butler-Volmer overpotential. -/
def potFun (q : SimParams) (d : Derived) (f : ℕ → ℝ) : ℝ :=
  potEq q (f (q.grid_size - 1)) +
    2.0 * rfaraday q * Real.arsinh (d.ccd / (2.0 * i0F d (f (q.grid_size - 1))))

/-- Initial concentration field (map.cpp lines 92-101, profile.cpp 74-83):
1e-4 everywhere in the analytic model, the first breakpoint (1e-4 when that
breakpoint is exactly 0) in the tabulated model. -/
def initField (q : SimParams) : ℕ → ℝ := fun _ =>
  if q.model then 1e-4 else if q.soc_eq 0 = 0.0 then 1e-4 else q.soc_eq 0

/-- position[i] = i * space_step (map.cpp line 63). -/
def positionF (d : Derived) (i : ℕ) : ℝ := (i : ℝ) * d.space_step

/-- alpha = time_step / (2 * space_step * space_step) (map.cpp line 74). -/
def alphaF (d : Derived) : ℝ := d.time_step / (2.0 * d.space_step * d.space_step)

/-- beta = (geometry_param - 1) * time_step / (4 * space_step)
(map.cpp lines 75-76). -/
def betaF (q : SimParams) (d : Derived) : ℝ :=
  (q.geometry_param - 1) * d.time_step / (4.0 * d.space_step)

/-- alpha_0 = 1 + 2 * alpha (map.cpp line 77). -/
def alpha0F (d : Derived) : ℝ := 1.0 + 2.0 * alphaF d

/-- gamma0 = 1 - 2 * alpha (map.cpp line 78). -/
def gamma0F (d : Derived) : ℝ := 1.0 - 2.0 * alphaF d

/-- Thomas forward-elimination coefficients (map.cpp lines 79-84); index 0
keeps its 0.0 initialisation. -/
def coefsF (q : SimParams) (d : Derived) : ℕ → ℝ
  | 0 => 0.0
  | 1 => 2.0 * alphaF d / alpha0F d
  | i + 2 =>
    (alphaF d + betaF q d / positionF d (i + 1)) /
      (alpha0F d - (alphaF d - betaF q d / positionF d (i + 1)) * coefsF q d (i + 1))

/-- add[i] = alpha + beta / position[i] (map.cpp line 88). -/
def addF (q : SimParams) (d : Derived) (i : ℕ) : ℝ :=
  alphaF d + betaF q d / positionF d i

/-- sub[i] = alpha - beta / position[i] (map.cpp line 89). -/
def subF (q : SimParams) (d : Derived) (i : ℕ) : ℝ :=
  alphaF d - betaF q d / positionF d i

/-- Right-hand-side vector gamma built from the previous field
(map.cpp lines 155-166).  The surface row is tested first so that it takes
precedence, matching the later C array write when grid_size = 1. -/
def gammaV (q : SimParams) (d : Derived) (f : ℕ → ℝ) (j : ℕ) : ℝ :=
  if j = q.grid_size - 1 then
    gamma0F d * f (q.grid_size - 1) + 2.0 * alphaF d * f (q.grid_size - 2) -
      addF q d (q.grid_size - 1) * 4.0 * d.space_step *
        (d.ccd / (faraday * d.maximum_capacity))
  else if j = 0 then
    gamma0F d * f 0 + 2.0 * alphaF d * f 1
  else
    gamma0F d * f j + addF q d j * f (j + 1) + subF q d j * f (j - 1)

/-- Forward-sweep intercepts (map.cpp lines 168-173); index 0 keeps its 0.0
initialisation. -/
def interceptsF (q : SimParams) (d : Derived) (f : ℕ → ℝ) : ℕ → ℝ
  | 0 => 0.0
  | 1 => gammaV q d f 0 / alpha0F d
  | i + 2 =>
    (gammaV q d f (i + 1) + subF q d (i + 1) * interceptsF q d f (i + 1)) /
      (alpha0F d - subF q d (i + 1) * coefsF q d (i + 1))

/-- New surface concentration (map.cpp lines 176-179). -/
def newSurfaceF (q : SimParams) (d : Derived) (f : ℕ → ℝ) : ℝ :=
  (gammaV q d f (q.grid_size - 1) + 2.0 * alphaF d * interceptsF q d f (q.grid_size - 1)) /
    (alpha0F d - 2.0 * alphaF d * coefsF q d (q.grid_size - 1))

/-- Back-substitution (map.cpp lines 180-185): `backSubF q d f k` is the new
concentration at node grid_size - 1 - k, computed from the node above it. -/
def backSubF (q : SimParams) (d : Derived) (f : ℕ → ℝ) : ℕ → ℝ
  | 0 => newSurfaceF q d f
  | k + 1 =>
    coefsF q d (q.grid_size - 1 - k) * backSubF q d f k +
      interceptsF q d f (q.grid_size - 1 - k)

/-- One Crank-Nicolson time step of the concentration field
(map.cpp lines 150-185, identically profile.cpp lines 161-190). -/
def stepField (q : SimParams) (d : Derived) (f : ℕ → ℝ) : ℕ → ℝ :=
  fun j => backSubF q d f (q.grid_size - 1 - j)

/-- Arithmetic mean over the grid nodes (map.cpp lines 188-192,
profile.cpp lines 134-138). -/
def meanF (q : SimParams) (f : ℕ → ℝ) : ℝ :=
  (∑ i ∈ Finset.range q.grid_size, f i) / (q.grid_size : ℝ)

/-- The field after n time steps from the initial seeding. -/
def iterF (q : SimParams) (d : Derived) (n : ℕ) : ℕ → ℝ :=
  (stepField q d)^[n] (initField q)

/-- The voltage-cutoff loop of run_map (map.cpp lines 103-186).  It returns
the field from which the terminal voltage was computed, which is exactly
`previous_soc` when the C loop exits; `none` means the loop has not exited
within `fuel` body executions. -/
def mapLoop (q : SimParams) (d : Derived) : ℕ → (ℕ → ℝ) → Option (ℕ → ℝ)
  | 0, _ => none
  | fuel + 1, f =>
    if potFun q d f ≤ q.vcut then some f else mapLoop q d fuel (stepField q d f)

/-- The max-SOC scalar run_map stores for one grid cell: the mean of the
field left in previous_soc when the loop exits (map.cpp lines 188-196). -/
def mapCellSoc (q : SimParams) (d : Derived) (fuel : ℕ) : Option ℝ :=
  (mapLoop q d fuel (initField q)).map (meanF q)

/-- The run_profile loop state: field, step counter, sampling counter,
snapshot flag, and the trace of (index, soc, pot) writes made to
res_soc/res_pot so far. -/
structure ProfState where
  f : ℕ → ℝ
  steps : ℕ
  res_index : ℕ
  profile_index : ℕ
  twrites : List (ℕ × ℝ × ℝ)

/-- Loop state before the first iteration (profile.cpp lines 74-90). -/
def profInit (q : SimParams) : ProfState := ⟨initField q, 0, 0, 0, []⟩

/-- One body iteration of the run_profile loop (profile.cpp lines 92-191),
given the voltage and mean SOC just computed from the current field: the
cadence-triggered sampling (the first trigger only advances res_index, later
triggers write at the pre-increment res_index), the snapshot flag, then the
field update and step increment. -/
def profBody (q : SimParams) (d : Derived) (each : ℕ) (profile_soc : ℝ)
    (potv socv : ℝ) (s : ProfState) : ProfState :=
  let hit := s.steps % (q.time_steps / each) = 0
  let ri := if hit then (if s.res_index = 0 then 1 else s.res_index + 1) else s.res_index
  let tw := if hit ∧ s.res_index ≠ 0 then s.twrites ++ [(s.res_index, socv, potv)] else s.twrites
  let pidx := if (profile_soc - 1e-4 < socv ∧ socv < profile_soc + 1e-4) ∧ s.profile_index = 0
    then 1 else s.profile_index
  ⟨stepField q d s.f, s.steps + 1, ri, pidx, tw⟩

/-- The run_profile voltage-cutoff loop (profile.cpp lines 92-192),
returning the final state together with the soc and pot_i values of the
terminal iteration (still live after the loop for the final write). -/
def profLoop (q : SimParams) (d : Derived) (each : ℕ) (profile_soc : ℝ) :
    ℕ → ProfState → Option (ProfState × ℝ × ℝ)
  | 0, _ => none
  | fuel + 1, s =>
    let potv := potFun q d s.f
    let socv := meanF q s.f
    let s2 := profBody q d each profile_soc potv socv s
    if potv ≤ q.vcut then some (s2, socv, potv) else profLoop q d each profile_soc fuel s2

/-- All writes a terminating run_profile call makes to res_soc/res_pot: the
in-loop sampling writes followed by the post-loop write at res_index + 1
(profile.cpp lines 140-149 and 194-195). -/
def runProfileWrites (q : SimParams) (d : Derived) (each : ℕ) (profile_soc : ℝ)
    (fuel : ℕ) : Option (List (ℕ × ℝ × ℝ)) :=
  (profLoop q d each profile_soc fuel (profInit q)).map
    (fun r => r.1.twrites ++ [(r.1.res_index + 1, r.2.1, r.2.2)])

/-- Just the res_soc/res_pot indices a terminating run_profile call writes. -/
def writeIndices (q : SimParams) (d : Derived) (each : ℕ) (profile_soc : ℝ)
    (fuel : ℕ) : Option (List ℕ) :=
  (runProfileWrites q d each profile_soc fuel).map (List.map Prod.fst)

/-- The inputs of one run_map call: per-run scalars, the two grids, and the
fuel bound for the modelled per-cell loops. -/
structure MapParams where
  q : SimParams
  num_logell : ℕ
  num_logxi : ℕ
  logell_grid : ℕ → ℝ
  logxi_grid : ℕ → ℝ
  fuel : ℕ

/-- The triple run_map computes for cell (i, j) (map.cpp lines 194-196). -/
def mapCell (P : MapParams) (i j : ℕ) : ℝ × ℝ × Option ℝ :=
  (P.logell_grid i, P.logxi_grid j,
    mapCellSoc P.q (mapDerived P.q (P.logell_grid i) (P.logxi_grid j)) P.fuel)

/-- Flattened output index of cell (i, j): index = logell * num_logxi + logxi
(map.cpp line 36). -/
def cellKey (P : MapParams) (ij : Fin P.num_logell × Fin P.num_logxi) : ℕ :=
  (ij.1 : ℕ) * P.num_logxi + (ij.2 : ℕ)

/-- Execute the per-cell output writes of the sweep in the order given by a
schedule (a linearisation of the writes the workers perform); the output is
the final content of the flattened result arrays. -/
def execSchedule (P : MapParams) (sched : List (Fin P.num_logell × Fin P.num_logxi)) :
    ℕ → Option (ℝ × ℝ × Option ℝ) :=
  sched.foldl (fun out ij => Function.update out (cellKey P ij) (some (mapCell P ij.1 ij.2)))
    (fun _ => none)

/-- The row-major cell order of the collapsed double loop (map.cpp 34-35). -/
def canonicalSchedule (P : MapParams) : List (Fin P.num_logell × Fin P.num_logxi) :=
  (List.finRange P.num_logell) ×ˢ (List.finRange P.num_logxi)

/-- The integer sampling-cadence divisor time_steps / each
(profile.cpp line 140). -/
def sampleDivisor (time_steps each : ℕ) : ℕ := time_steps / each

/-- The C sampling guard steps % (time_steps / each) == 0
(profile.cpp line 140), with remainder by zero, undefined behaviour in C,
modelled as `none`. -/
def sampleHit (time_steps each steps : ℕ) : Option Bool :=
  if sampleDivisor time_steps each = 0 then none
  else some (steps % sampleDivisor time_steps each == 0)

/-- A concrete analytic-model run: temperature 0 (so every computed voltage
is 0) and cutoff 1, making the loop exit on its first body iteration. -/
def qc1 : SimParams :=
  ⟨true, 0, 2, 2, 0, 0, 1, 1, 1, 1, 2,
    fun _ => 0, fun _ => 0, fun _ => 0, fun _ => 0, fun _ => 0⟩

/-- A concrete spherical-geometry analytic run at room temperature. -/
def qc2 : SimParams :=
  ⟨true, 0, 2, 2, 0, 298, 1, 1, 0, 1, 2,
    fun _ => 0, fun _ => 0, fun _ => 0, fun _ => 0, fun _ => 0⟩

/-- A concrete tabulated-model parameter set with breakpoints 0, 1, 2 and
distinct per-segment cubic coefficients. -/
def qc3 : SimParams :=
  ⟨false, 0, 2, 2, 2, 298, 1, 1, 0, 1, 2,
    fun i => (i : ℝ), fun i => (i : ℝ) + 1, fun i => (i : ℝ) + 2,
    fun i => (i : ℝ) + 3, fun i => (i : ℝ)⟩

/-- A concrete analytic run with a strong interaction parameter and a deep
cutoff: the first step overshoots the surface concentration past 1 and the
run then terminates. -/
def qc5 : SimParams :=
  ⟨true, 200, 2, 2, 0, 298, 1, 1, -2, 1, 2,
    fun _ => 0, fun _ => 0, fun _ => 0, fun _ => 0, fun _ => 0⟩

/-- logell value whose power of ten is exactly 8. -/
def logellc5 : ℝ := Real.logb 10 8

/-- The run_map derived quantities at the concrete point of qc5. -/
def dc5 : Derived := mapDerived qc5 logellc5 0

/-- A concrete 1 by 2 sweep configuration. -/
def Pw : MapParams := ⟨qc1, 1, 2, fun _ => 0, fun _ => 0, 1⟩

/-- The run_profile derived quantities at the concrete point of qc1. -/
def dp4 : Derived := profDerived qc1 0 0

/-- Square root with the C domain made explicit: C sqrt returns NaN on a
negative argument, modelled as `none`. -/
def csqrt (x : ℝ) : Option ℝ := if x < 0 then none else some (Real.sqrt x)

/-- run_map particle size (map.cpp lines 41-44) with the square root's NaN
domain tracked: `none` models the NaN the program computes when the
argument is negative. -/
def particle_size_map_checked (q : SimParams) (logell logxi : ℝ) : Option ℝ :=
  (csqrt ((10 : ℝ) ^ logell * q.geometry_param * t_hour / c_rateF q logxi)).map
    (fun r => 2.0 * r)

/-- run_profile particle size (profile.cpp lines 30-31, with the literal
2.0 factor) with the square root's NaN domain tracked. -/
def particle_size_prof_checked (q : SimParams) (logell logxi : ℝ) : Option ℝ :=
  (csqrt ((10 : ℝ) ^ logell * 2.0 * t_hour / c_rateF q logxi)).map
    (fun r => 2.0 * r)

/-- A concrete planar-geometry parameter set (geometry_param = 0). -/
def qc0 : SimParams :=
  ⟨true, 0, 2, 2, 0, 298, 1, 1, 0, 1, 0,
    fun _ => 0, fun _ => 0, fun _ => 0, fun _ => 0, fun _ => 0⟩

end

/-! ## C10: the sampling-cadence divisor -/

/-- C10: run_profile computes its sampling cadence as
steps % (time_steps / each) with no guard.  For every call with
each > time_steps the integer divisor time_steps / each is zero and the C
remainder divides by zero (undefined behaviour, modelled as `none`); under
the unstated precondition 1 ≤ each ≤ time_steps the divisor is positive and
the guard is well defined. -/
theorem c10_sampling_cadence (time_steps each : ℕ) :
    (time_steps < each → sampleDivisor time_steps each = 0 ∧
      ∀ steps, sampleHit time_steps each steps = none) ∧
    (1 ≤ each → each ≤ time_steps → 0 < sampleDivisor time_steps each ∧
      ∀ steps, sampleHit time_steps each steps =
        some (steps % (time_steps / each) == 0)) := by
  constructor
  · intro h
    have hz : sampleDivisor time_steps each = 0 := Nat.div_eq_of_lt h
    exact ⟨hz, fun steps => by simp [sampleHit, hz]⟩
  · intro h1 h2
    have hp : 0 < sampleDivisor time_steps each := Nat.div_pos h2 h1
    have hne : time_steps / each ≠ 0 := by simpa [sampleDivisor] using hp.ne'
    exact ⟨hp, fun steps => by simp [sampleHit, sampleDivisor, hne]⟩

/-- C10 witness: the divide-by-zero case at time_steps 2, each 5, and the
well-defined case at time_steps 10, each 3, step 6. -/
theorem c10_sampling_cadence_witness :
    (sampleDivisor 2 5 = 0 ∧ sampleHit 2 5 7 = none) ∧
    (0 < sampleDivisor 10 3 ∧ sampleHit 10 3 6 = some true) := by
  refine ⟨⟨((c10_sampling_cadence 2 5).1 (by decide)).1,
      ((c10_sampling_cadence 2 5).1 (by decide)).2 7⟩,
    ⟨((c10_sampling_cadence 10 3).2 (by decide) (by decide)).1, ?_⟩⟩
  rw [((c10_sampling_cadence 10 3).2 (by decide) (by decide)).2 6]
  decide

/-! ## C3 and C8: the spline segment scan -/

/-- If the segment test first succeeds at index k, the scan started at any
index at or below k returns segment k. -/
lemma splineScan_of_match (q : SimParams) (s : ℝ) (k : ℕ)
    (hk : k < q.isotherm_len)
    (hmatch : q.soc_eq k ≤ s ∧ s < q.soc_eq (k + 1))
    (hskip : ∀ m, m < k → ¬(q.soc_eq m ≤ s ∧ s < q.soc_eq (m + 1))) :
    ∀ j i acc, i + j = k → splineScan q s i acc =
      (q.spl_ai k, q.spl_bi k, q.spl_ci k, q.spl_di k, q.soc_eq k) := by
  intro j
  induction j with
  | zero =>
    intro i acc hik
    have hik0 : i = k := by omega
    subst hik0
    rw [splineScan, dif_pos hk, if_pos hmatch]
  | succ n ih =>
    intro i acc hik
    have hilt : i < k := by omega
    rw [splineScan, dif_pos (by omega), if_neg (hskip i hilt)]
    exact ih (i + 1) _ (by omega)

/-- If no segment test ever succeeds, the scan falls through to the
accumulated else-branch assignment: the last segment (or the initial
accumulator when the loop never runs). -/
lemma splineScan_of_nomatch (q : SimParams) (s : ℝ)
    (hall : ∀ m, m < q.isotherm_len → ¬(q.soc_eq m ≤ s ∧ s < q.soc_eq (m + 1))) :
    ∀ j i, i + j = q.isotherm_len → ∀ acc,
      splineScan q s i acc =
        if j = 0 then acc else
          (q.spl_ai (q.isotherm_len - 1), q.spl_bi (q.isotherm_len - 1),
            q.spl_ci (q.isotherm_len - 1), q.spl_di (q.isotherm_len - 1),
            q.soc_eq (q.isotherm_len - 1)) := by
  intro j
  induction j with
  | zero =>
    intro i hi acc
    rw [splineScan, dif_neg (by omega)]
    simp
  | succ n ih =>
    intro i hi acc
    rw [splineScan, dif_pos (by omega), if_neg (hall i (by omega)),
      ih (i + 1) (by omega)]
    simp

/-- C3: for a strictly increasing breakpoint sequence the tabulated lookup
selects the first (indeed unique) segment k with
breakpoint k ≤ soc < breakpoint (k+1) and evaluates the cubic
d + c Δ + b Δ^2 + a Δ^3 at Δ = soc - breakpoint k; a soc at or beyond the
last breakpoint falls through to the last segment's coefficients with the
last segment's own breakpoint as Δ's origin. -/
theorem c3_spline_lookup (q : SimParams) (hmodel : q.model = false)
    (hlen : 1 ≤ q.isotherm_len)
    (hmono : ∀ a b, a < b → b ≤ q.isotherm_len → q.soc_eq a < q.soc_eq b) :
    (∀ s k, k < q.isotherm_len → q.soc_eq k ≤ s → s < q.soc_eq (k + 1) →
      splineScan q s 0 (0, 0, 0, 0, 0) =
        (q.spl_ai k, q.spl_bi k, q.spl_ci k, q.spl_di k, q.soc_eq k) ∧
      potEq q s = q.spl_di k + q.spl_ci k * (s - q.soc_eq k) +
        q.spl_bi k * (s - q.soc_eq k) ^ 2 + q.spl_ai k * (s - q.soc_eq k) ^ 3) ∧
    (∀ s, q.soc_eq q.isotherm_len ≤ s →
      splineScan q s 0 (0, 0, 0, 0, 0) =
        (q.spl_ai (q.isotherm_len - 1), q.spl_bi (q.isotherm_len - 1),
          q.spl_ci (q.isotherm_len - 1), q.spl_di (q.isotherm_len - 1),
          q.soc_eq (q.isotherm_len - 1)) ∧
      potEq q s = q.spl_di (q.isotherm_len - 1) +
        q.spl_ci (q.isotherm_len - 1) * (s - q.soc_eq (q.isotherm_len - 1)) +
        q.spl_bi (q.isotherm_len - 1) * (s - q.soc_eq (q.isotherm_len - 1)) ^ 2 +
        q.spl_ai (q.isotherm_len - 1) * (s - q.soc_eq (q.isotherm_len - 1)) ^ 3) := by
  constructor
  · intro s k hk hlo hhi
    have hskip : ∀ m, m < k → ¬(q.soc_eq m ≤ s ∧ s < q.soc_eq (m + 1)) := by
      intro m hm hc
      have hle : q.soc_eq (m + 1) ≤ q.soc_eq k := by
        rcases Nat.lt_or_ge (m + 1) k with hlt | hge
        · exact le_of_lt (hmono (m + 1) k hlt (le_of_lt hk))
        · have : m + 1 = k := by omega
          rw [this]
      exact absurd hc.2 (not_lt.mpr (le_trans hle hlo))
    have hscan := splineScan_of_match q s k hk ⟨hlo, hhi⟩ hskip k 0 (0, 0, 0, 0, 0) (by omega)
    refine ⟨hscan, ?_⟩
    rw [potEq]
    rw [if_neg (by rw [hmodel]; simp)]
    rw [hscan]
    ring
  · intro s hs
    have hall : ∀ m, m < q.isotherm_len → ¬(q.soc_eq m ≤ s ∧ s < q.soc_eq (m + 1)) := by
      intro m hm hc
      have hle : q.soc_eq (m + 1) ≤ q.soc_eq q.isotherm_len := by
        rcases Nat.lt_or_ge (m + 1) q.isotherm_len with hlt | hge
        · exact le_of_lt (hmono (m + 1) q.isotherm_len hlt le_rfl)
        · have : m + 1 = q.isotherm_len := by omega
          rw [this]
      exact absurd hc.2 (not_lt.mpr (le_trans hle hs))
    have hscan := splineScan_of_nomatch q s hall q.isotherm_len 0 (by omega) (0, 0, 0, 0, 0)
    rw [if_neg (by omega)] at hscan
    refine ⟨hscan, ?_⟩
    rw [potEq]
    rw [if_neg (by rw [hmodel]; simp)]
    rw [hscan]
    ring

/-- C3 witness: with breakpoints 0, 1, 2, the soc 1/2 selects segment 0 and
the out-of-range soc 5 falls through to segment 1. -/
theorem c3_spline_lookup_witness :
    splineScan qc3 (1 / 2) 0 (0, 0, 0, 0, 0) = (0, 1, 2, 3, 0) ∧
    splineScan qc3 (5 : ℝ) 0 (0, 0, 0, 0, 0) = (1, 2, 3, 4, 1) := by
  have h := c3_spline_lookup qc3 rfl (by norm_num [qc3])
    (fun a b hab hb => by simp only [qc3]; exact_mod_cast hab)
  constructor
  · have h1 := (h.1 (1 / 2) 0 (by norm_num [qc3]) (by norm_num [qc3]) (by norm_num [qc3])).1
    rw [h1]
    norm_num [qc3]
  · have h2 := (h.2 5 (by norm_num [qc3])).1
    rw [h2]
    norm_num [qc3]

/-- C8: a surface SOC strictly below the first breakpoint matches no
segment, so the lookup saturates to the LAST segment's coefficients with
the last segment's breakpoint as Δ's origin, not to the first segment. -/
theorem c8_below_range_saturates_to_last (q : SimParams) (hmodel : q.model = false)
    (hlen : 1 ≤ q.isotherm_len)
    (hmono : ∀ a b, a < b → b ≤ q.isotherm_len → q.soc_eq a < q.soc_eq b)
    (s : ℝ) (hs : s < q.soc_eq 0) :
    splineScan q s 0 (0, 0, 0, 0, 0) =
      (q.spl_ai (q.isotherm_len - 1), q.spl_bi (q.isotherm_len - 1),
        q.spl_ci (q.isotherm_len - 1), q.spl_di (q.isotherm_len - 1),
        q.soc_eq (q.isotherm_len - 1)) ∧
    potEq q s = q.spl_di (q.isotherm_len - 1) +
      q.spl_ci (q.isotherm_len - 1) * (s - q.soc_eq (q.isotherm_len - 1)) +
      q.spl_bi (q.isotherm_len - 1) * (s - q.soc_eq (q.isotherm_len - 1)) ^ 2 +
      q.spl_ai (q.isotherm_len - 1) * (s - q.soc_eq (q.isotherm_len - 1)) ^ 3 := by
  have hall : ∀ m, m < q.isotherm_len → ¬(q.soc_eq m ≤ s ∧ s < q.soc_eq (m + 1)) := by
    intro m hm hc
    have hle : q.soc_eq 0 ≤ q.soc_eq m := by
      rcases Nat.eq_zero_or_pos m with h0 | hpos
      · rw [h0]
      · exact le_of_lt (hmono 0 m hpos (le_of_lt hm))
    exact absurd hc.1 (not_le.mpr (lt_of_lt_of_le hs hle))
  have hscan := splineScan_of_nomatch q s hall q.isotherm_len 0 (by omega) (0, 0, 0, 0, 0)
  rw [if_neg (by omega)] at hscan
  refine ⟨hscan, ?_⟩
  rw [potEq]
  rw [if_neg (by rw [hmodel]; simp)]
  rw [hscan]
  ring

/-- C8 witness: with breakpoints 0, 1, 2, the below-range soc -1 selects the
last segment (index 1), not the first. -/
theorem c8_below_range_saturates_to_last_witness :
    splineScan qc3 (-1 : ℝ) 0 (0, 0, 0, 0, 0) = (1, 2, 3, 4, 1) := by
  have h := (c8_below_range_saturates_to_last qc3 rfl (by norm_num [qc3])
    (fun a b hab hb => by simp only [qc3]; exact_mod_cast hab)
    (-1) (by norm_num [qc3])).1
  rw [h]
  norm_num [qc3]

/-! ## C9: the derivation is well defined only for the spherical geometry -/

/-- C9: with geometry_param = 1 the rate c_rate = t_hour (g-1)/ξ^2 is
exactly zero, and the denominators of the surface current density and of
the time step both vanish; with geometry_param = 0 the rate is negative,
the particle size evaluates to zero, and the surface-area division by
density * particle_size is a division by zero; with geometry_param = 2 and
positive mass, density and specific capacity every one of those
denominators is nonzero. -/
theorem c9_geometry_degeneracy (q : SimParams) (logell logxi : ℝ)
    (hmass : 0 < q.mass) (hdens : 0 < q.density)
    (hspec : 0 < q.specific_capacity) :
    (q.geometry_param = 1 →
      c_rateF q logxi = 0 ∧
      particle_size_map q logell logxi = 0 ∧
      q.density * particle_size_map q logell logxi = 0 ∧
      1000.0 * (mapDerived q logell logxi).surface_area = 0 ∧
      (mapDerived q logell logxi).ccd * (mapDerived q logell logxi).surface_area = 0) ∧
    (q.geometry_param = 0 →
      c_rateF q logxi < 0 ∧
      particle_size_map q logell logxi = 0 ∧
      q.density * particle_size_map q logell logxi = 0) ∧
    (q.geometry_param = 2 →
      0 < c_rateF q logxi ∧
      0 < particle_size_map q logell logxi ∧
      q.density * particle_size_map q logell logxi ≠ 0 ∧
      1000.0 * (mapDerived q logell logxi).surface_area ≠ 0 ∧
      (mapDerived q logell logxi).ccd * (mapDerived q logell logxi).surface_area ≠ 0) := by
  have hxi : (0 : ℝ) < ((10 : ℝ) ^ logxi) ^ 2 := by
    have := Real.rpow_pos_of_pos (by norm_num : (0 : ℝ) < 10) logxi
    positivity
  refine ⟨?_, ?_, ?_⟩
  · intro hg
    have hc : c_rateF q logxi = 0 := by
      rw [c_rateF, hg]
      norm_num
    have hp : particle_size_map q logell logxi = 0 := by
      rw [particle_size_map, hc, div_zero, Real.sqrt_zero, mul_zero]
    have hsa : (mapDerived q logell logxi).surface_area = 0 := by
      simp only [mapDerived]
      rw [hp, mul_zero, div_zero]
    exact ⟨hc, hp, by rw [hp, mul_zero], by rw [hsa, mul_zero],
      by rw [hsa, mul_zero]⟩
  · intro hg
    have hc : c_rateF q logxi < 0 := by
      rw [c_rateF, hg, t_hour]
      apply div_neg_of_neg_of_pos _ hxi
      norm_num
    have hp : particle_size_map q logell logxi = 0 := by
      rw [particle_size_map, hg, mul_zero, zero_mul, zero_div, Real.sqrt_zero, mul_zero]
    exact ⟨hc, hp, by rw [hp, mul_zero]⟩
  · intro hg
    have h10 : (0 : ℝ) < (10 : ℝ) ^ logell := Real.rpow_pos_of_pos (by norm_num) logell
    have hc : 0 < c_rateF q logxi := by
      rw [c_rateF, hg, t_hour]
      apply div_pos _ hxi
      norm_num
    have hp : 0 < particle_size_map q logell logxi := by
      rw [particle_size_map, hg, t_hour]
      have harg : 0 < (10 : ℝ) ^ logell * 2 * 3600.0 / c_rateF q logxi := by
        apply div_pos _ hc
        positivity
      have := Real.sqrt_pos.mpr harg
      positivity
    have hsa : 0 < (mapDerived q logell logxi).surface_area := by
      simp only [mapDerived]
      rw [hg]
      apply div_pos _ (by positivity)
      positivity
    have hccd : (mapDerived q logell logxi).ccd < 0 := by
      simp only [mapDerived]
      apply div_neg_of_neg_of_pos
      · have : 0 < c_rateF q logxi * q.specific_capacity * q.mass := by positivity
        linarith
      · simp only [mapDerived] at hsa
        positivity
    refine ⟨hc, hp, by positivity, ?_, ?_⟩
    · have : (0 : ℝ) < 1000.0 * (mapDerived q logell logxi).surface_area := by positivity
      exact ne_of_gt this
    · have : (mapDerived q logell logxi).ccd * (mapDerived q logell logxi).surface_area < 0 :=
        mul_neg_of_neg_of_pos hccd hsa
      exact ne_of_lt this

/-- C9 witness: the spherical case at the concrete parameter set qc2. -/
theorem c9_geometry_degeneracy_witness :
    0 < c_rateF qc2 0 ∧ 0 < particle_size_map qc2 0 0 ∧
    qc2.density * particle_size_map qc2 0 0 ≠ 0 ∧
    1000.0 * (mapDerived qc2 0 0).surface_area ≠ 0 ∧
    (mapDerived qc2 0 0).ccd * (mapDerived qc2 0 0).surface_area ≠ 0 :=
  (c9_geometry_degeneracy qc2 0 0 (by norm_num [qc2]) (by norm_num [qc2])
    (by norm_num [qc2])).2.2 rfl

/-! ## C2: run_map and run_profile share the per-point derivation only at
geometry 2 -/

/-- The planar rate at xi = 1 is exactly -3600. -/
lemma c_rate_qc0 : c_rateF qc0 0 = -3600 := by
  rw [c_rateF, Real.rpow_zero]
  norm_num [qc0, t_hour]

/-- C2 counterexample: at the concrete planar point qc0 (geometry_param =
0, logell = logxi = 0), run_map's particle size has square-root argument 0
and evaluates to a number, while run_profile's formula (the literal 2.0 in
place of geometry_param) has square-root argument -2 and evaluates to NaN
(`none` in the domain-tracking model): the derived per-point quantities of
the two kernels are NOT equal at this geometry in 0, 1, 2. -/
theorem c2_counterexample_planar_divergence :
    qc0.geometry_param = 0 ∧
    particle_size_map_checked qc0 0 0 = some 0 ∧
    particle_size_prof_checked qc0 0 0 = none ∧
    particle_size_map_checked qc0 0 0 ≠ particle_size_prof_checked qc0 0 0 := by
  have hmap : particle_size_map_checked qc0 0 0 = some 0 := by
    rw [particle_size_map_checked, csqrt]
    rw [show (10 : ℝ) ^ (0 : ℝ) * qc0.geometry_param * t_hour / c_rateF qc0 0 = 0 by
      rw [Real.rpow_zero, c_rate_qc0]
      norm_num [qc0, t_hour]]
    rw [if_neg (by norm_num), Real.sqrt_zero]
    simp
  have hprof : particle_size_prof_checked qc0 0 0 = none := by
    rw [particle_size_prof_checked, csqrt]
    rw [show (10 : ℝ) ^ (0 : ℝ) * 2.0 * t_hour / c_rateF qc0 0 = -2 by
      rw [Real.rpow_zero, c_rate_qc0]
      norm_num [t_hour]]
    rw [if_pos (by norm_num)]
    rfl
  refine ⟨rfl, hmap, hprof, ?_⟩
  rw [hmap, hprof]
  simp

/-- C2 amended: at geometry_param = 2, the one geometry where the two
particle-size formulas (geometry_param in map.cpp, the literal 2.0 in
profile.cpp) coincide, every derived per-point quantity computed by
run_map equals the one computed by run_profile, both as real values and in
the NaN-tracking model. -/
theorem c2_shared_derivation_sphere (q : SimParams) (logell logxi : ℝ)
    (hg : q.geometry_param = 2) :
    mapDerived q logell logxi = profDerived q logell logxi ∧
    particle_size_map_checked q logell logxi =
      particle_size_prof_checked q logell logxi := by
  have harg : (10 : ℝ) ^ logell * q.geometry_param * t_hour =
      (10 : ℝ) ^ logell * 2.0 * t_hour := by
    rw [hg]
    norm_num
  constructor
  · have hps : particle_size_map q logell logxi = particle_size_prof q logell logxi := by
      rw [particle_size_map, particle_size_prof, harg]
    rw [mapDerived, profDerived, hps]
  · rw [particle_size_map_checked, particle_size_prof_checked, harg]

/-- C2 witness: the amended equality at the concrete spherical point of
qc2. -/
theorem c2_shared_derivation_sphere_witness :
    mapDerived qc2 0 0 = profDerived qc2 0 0 ∧
    particle_size_map_checked qc2 0 0 = particle_size_prof_checked qc2 0 0 :=
  c2_shared_derivation_sphere qc2 0 0 rfl

/-! ## C1: terminal semantics of the run_map voltage-cutoff loop -/

/-- The fuel-bounded loop returns a field exactly when some iterate within
the fuel crosses the cutoff, and then it returns the first such iterate. -/
lemma mapLoop_some_iff (q : SimParams) (d : Derived) :
    ∀ (fuel : ℕ) (f F : ℕ → ℝ),
      mapLoop q d fuel f = some F ↔
        ∃ N, N < fuel ∧
          (∀ m, m < N → q.vcut < potFun q d ((stepField q d)^[m] f)) ∧
          potFun q d ((stepField q d)^[N] f) ≤ q.vcut ∧
          F = (stepField q d)^[N] f := by
  intro fuel
  induction fuel with
  | zero => intro f F; simp [mapLoop]
  | succ n ih =>
    intro f F
    rw [mapLoop]
    by_cases h : potFun q d f ≤ q.vcut
    · rw [if_pos h]
      constructor
      · intro hF
        have hFf : F = f := (Option.some_injective _ hF).symm
        exact ⟨0, Nat.succ_pos n, fun m hm => absurd hm (Nat.not_lt_zero m),
          by simpa using h, by simpa using hFf⟩
      · rintro ⟨N, hN, hpre, hterm, hFeq⟩
        rcases Nat.eq_zero_or_pos N with h0 | hpos
        · subst h0
          simp only [Function.iterate_zero_apply] at hFeq
          rw [hFeq]
        · exact absurd h (not_le.mpr (by simpa using hpre 0 hpos))
    · rw [if_neg h]
      rw [ih (stepField q d f) F]
      constructor
      · rintro ⟨N, hN, hpre, hterm, hFeq⟩
        refine ⟨N + 1, by omega, ?_, ?_, ?_⟩
        · intro m hm
          rcases Nat.eq_zero_or_pos m with h0 | hpos
          · subst h0
            simpa using not_le.mp h
          · obtain ⟨m0, rfl⟩ := Nat.exists_eq_succ_of_ne_zero (Nat.pos_iff_ne_zero.mp hpos)
            rw [Function.iterate_succ_apply]
            exact hpre m0 (by omega)
        · rw [Function.iterate_succ_apply]
          exact hterm
        · rw [Function.iterate_succ_apply]
          exact hFeq
      · rintro ⟨N, hN, hpre, hterm, hFeq⟩
        rcases Nat.eq_zero_or_pos N with h0 | hpos
        · subst h0
          exact absurd (by simpa using hterm) h
        · obtain ⟨N0, rfl⟩ := Nat.exists_eq_succ_of_ne_zero (Nat.pos_iff_ne_zero.mp hpos)
          refine ⟨N0, by omega, ?_, ?_, ?_⟩
          · intro m hm
            have := hpre (m + 1) (by omega)
            rwa [Function.iterate_succ_apply] at this
          · have := hterm
            rwa [Function.iterate_succ_apply] at this
          · have := hFeq
            rwa [Function.iterate_succ_apply] at this

/-- C1: whenever the run_map stepping loop exits, it exits at the first
iterate N whose computed voltage is at or below the cutoff, and the
reported max-SOC for the cell is the mean of that iterate, the field from
which the terminal voltage was computed, before the terminal diffusion
update; and within any fuel bound the loop has no exit other than the
voltage cutoff. -/
theorem c1_terminal_semantics (q : SimParams) (d : Derived) (fuel : ℕ) :
    (∀ F, mapLoop q d fuel (initField q) = some F →
      mapCellSoc q d fuel = some (meanF q F) ∧
      ∃ N, N < fuel ∧ (∀ m, m < N → q.vcut < potFun q d (iterF q d m)) ∧
        potFun q d (iterF q d N) ≤ q.vcut ∧ F = iterF q d N) ∧
    ((∀ m, m < fuel → q.vcut < potFun q d (iterF q d m)) →
      mapLoop q d fuel (initField q) = none) := by
  constructor
  · intro F hF
    refine ⟨by rw [mapCellSoc, hF, Option.map_some'], ?_⟩
    have h := (mapLoop_some_iff q d fuel (initField q) F).mp hF
    simpa only [iterF] using h
  · intro hall
    cases hcase : mapLoop q d fuel (initField q) with
    | none => rfl
    | some F =>
      obtain ⟨N, hN, _, hterm, _⟩ := (mapLoop_some_iff q d fuel (initField q) F).mp hcase
      exact absurd hterm (not_le.mpr (by simpa only [iterF] using hall N hN))

/-- With temperature 0 the Frumkin potential and the overpotential term are
both zero, whatever the field and derived quantities. -/
lemma potFun_qc1 (d : Derived) (f : ℕ → ℝ) : potFun qc1 d f = 0 := by
  have hrf : rfaraday qc1 = 0 := by
    norm_num [rfaraday, qc1, gas_constant, faraday]
  have hmodel : qc1.model = true := rfl
  rw [potFun, potEq, if_pos hmodel, hrf]
  ring

/-- The qc1 loop exits on its first body iteration. -/
lemma mapLoop_qc1 (d : Derived) : mapLoop qc1 d 1 (initField qc1) = some (initField qc1) := by
  rw [mapLoop, if_pos]
  rw [potFun_qc1]
  norm_num [qc1]

/-- C1 witness: the concrete qc1 run exits at iterate 0 and reports the
mean of the initial field. -/
theorem c1_terminal_semantics_witness :
    mapCellSoc qc1 (mapDerived qc1 0 0) 1 = some (meanF qc1 (initField qc1)) ∧
    ∃ N, N < 1 ∧
      (∀ m, m < N → qc1.vcut < potFun qc1 (mapDerived qc1 0 0) (iterF qc1 (mapDerived qc1 0 0) m)) ∧
      potFun qc1 (mapDerived qc1 0 0) (iterF qc1 (mapDerived qc1 0 0) N) ≤ qc1.vcut ∧
      initField qc1 = iterF qc1 (mapDerived qc1 0 0) N :=
  (c1_terminal_semantics qc1 (mapDerived qc1 0 0) 1).1 (initField qc1)
    (mapLoop_qc1 (mapDerived qc1 0 0))

/-! ## C6 and C7: the parallel sweep -/

/-- The flattened index determines the cell: distinct in-range cells have
distinct output slots. -/
lemma cellKey_injective (P : MapParams) : Function.Injective (cellKey P) := by
  rintro ⟨i1, j1⟩ ⟨i2, j2⟩ h
  simp only [cellKey] at h
  have hn : 0 < P.num_logxi := j1.pos
  have ediv : ∀ (i j : ℕ), j < P.num_logxi → (i * P.num_logxi + j) / P.num_logxi = i := by
    intro i j hj
    rw [Nat.add_comm, Nat.add_mul_div_right _ _ hn, Nat.div_eq_of_lt hj, Nat.zero_add]
  have hi : (i1 : ℕ) = (i2 : ℕ) := by
    have e1 := ediv i1 j1 j1.isLt
    have e2 := ediv i2 j2 j2.isLt
    rw [← e1, ← e2, h]
  have hj : (j1 : ℕ) = (j2 : ℕ) := by
    rw [hi] at h
    omega
  rw [Prod.ext_iff]
  exact ⟨Fin.ext hi, Fin.ext hj⟩

/-- C6: the sweep output is independent of the order in which the cells
are executed: any two schedules that are rearrangements of the same
multiset of cells, as produced by any worker count and any scheduling,
yield identical contents in all three output arrays. -/
theorem c6_schedule_determinism (P : MapParams)
    (s1 s2 : List (Fin P.num_logell × Fin P.num_logxi)) (hperm : s1.Perm s2) :
    execSchedule P s1 = execSchedule P s2 := by
  unfold execSchedule
  apply hperm.foldl_eq'
  intro x _ y _ z
  by_cases hxy : cellKey P x = cellKey P y
  · have : x = y := cellKey_injective P hxy
    rw [this]
  · exact Function.update_comm hxy _ _ _

/-- C6 witness: on the concrete 1 by 2 sweep, executing the two cells in
either order yields the same output arrays. -/
theorem c6_schedule_determinism_witness :
    execSchedule Pw [(⟨0, by decide⟩, ⟨0, by decide⟩), (⟨0, by decide⟩, ⟨1, by decide⟩)] =
      execSchedule Pw [(⟨0, by decide⟩, ⟨1, by decide⟩), (⟨0, by decide⟩, ⟨0, by decide⟩)] :=
  c6_schedule_determinism Pw _ _ (by decide)

/-- Folding the per-cell writes over a schedule whose key-k writers all
carry the value v leaves v at slot k when some writer hit it, and the
initial content otherwise. -/
lemma execSchedule_foldl_char (P : MapParams) :
    ∀ (l : List (Fin P.num_logell × Fin P.num_logxi))
      (acc : ℕ → Option (ℝ × ℝ × Option ℝ)) (k : ℕ) (v : ℝ × ℝ × Option ℝ)
      (_hall : ∀ y ∈ l, cellKey P y = k → mapCell P y.1 y.2 = v),
      List.foldl (fun out ij =>
        Function.update out (cellKey P ij) (some (mapCell P ij.1 ij.2))) acc l k =
        if l.any (fun y => cellKey P y == k) then some v else acc k := by
  intro l
  induction l with
  | nil => intro acc k v _hall; simp
  | cons a t ih =>
    intro acc k v hall
    rw [List.foldl_cons, List.any_cons]
    rw [ih _ k v (fun y hy hk => hall y (List.mem_cons_of_mem a hy) hk)]
    by_cases ht : t.any (fun y => cellKey P y == k)
    · rw [ht]
      simp
    · rw [eq_false_of_ne_true ht]
      by_cases ha : cellKey P a = k
      · have hv : mapCell P a.1 a.2 = v := hall a (List.mem_cons_self a t) ha
        rw [← ha]
        simp [Function.update_same, hv]
      · have : (cellKey P a == k) = false := beq_false_of_ne ha
        rw [this]
        rw [if_neg (by decide), if_neg (by decide)]
        exact Function.update_noteq (fun hne => ha hne.symm) _ acc

/-- C7: in the row-major schedule of the collapsed double loop, the slot of
cell (i, j) receives exactly the triple of cell (i, j); that cell occurs
exactly once among the writers of its slot, every writer of the slot is the
cell itself, and the first two components echo the grids. -/
theorem c7_write_once_and_echo (P : MapParams)
    (i : Fin P.num_logell) (j : Fin P.num_logxi) :
    execSchedule P (canonicalSchedule P) (cellKey P (i, j)) = some (mapCell P i j) ∧
    ((canonicalSchedule P).map (cellKey P)).count (cellKey P (i, j)) = 1 ∧
    (∀ y ∈ canonicalSchedule P, cellKey P y = cellKey P (i, j) → y = (i, j)) ∧
    (mapCell P i j).1 = P.logell_grid i ∧
    (mapCell P i j).2.1 = P.logxi_grid j := by
  have hmem : (i, j) ∈ canonicalSchedule P := by
    rw [canonicalSchedule, List.mem_product]
    exact ⟨List.mem_finRange i, List.mem_finRange j⟩
  have hnodup : (canonicalSchedule P).Nodup :=
    (List.nodup_finRange P.num_logell).product (List.nodup_finRange P.num_logxi)
  have huniq : ∀ y ∈ canonicalSchedule P, cellKey P y = cellKey P (i, j) → y = (i, j) :=
    fun y _ hk => cellKey_injective P hk
  refine ⟨?_, ?_, huniq, rfl, rfl⟩
  · rw [execSchedule, execSchedule_foldl_char P (canonicalSchedule P) _ (cellKey P (i, j))
      (mapCell P i j) (fun y hy hk => by rw [huniq y hy hk])]
    rw [if_pos]
    rw [List.any_eq_true]
    exact ⟨(i, j), hmem, beq_self_eq_true _⟩
  · rw [List.count_map_of_injective _ _ (cellKey_injective P)]
    exact List.count_eq_one_of_mem hnodup hmem

/-! ## C4: the run_profile trajectory writes -/

/-- One loop body preserves the sampling-trace invariant: the in-loop write
indices are exactly 1 .. res_index - 1, the trace is empty while res_index
is 0, and after the body res_index is at least 1 (step 0 always triggers
the cadence, since 0 % c = 0 for every c). -/
lemma profBody_inv (q : SimParams) (d : Derived) (each : ℕ) (psoc potv socv : ℝ)
    (s : ProfState)
    (h1 : s.twrites.map Prod.fst = List.range' 1 (s.res_index - 1))
    (h2 : s.res_index = 0 → s.twrites = [])
    (h3 : s.steps = 0 ∨ 1 ≤ s.res_index) :
    (profBody q d each psoc potv socv s).twrites.map Prod.fst =
      List.range' 1 ((profBody q d each psoc potv socv s).res_index - 1) ∧
    ((profBody q d each psoc potv socv s).res_index = 0 →
      (profBody q d each psoc potv socv s).twrites = []) ∧
    1 ≤ (profBody q d each psoc potv socv s).res_index := by
  simp only [profBody]
  by_cases hhit : s.steps % (q.time_steps / each) = 0
  · by_cases hri : s.res_index = 0
    · rw [if_pos hhit, if_pos hri, if_neg (by simp [hri])]
      refine ⟨?_, fun _ => h2 hri, le_refl 1⟩
      rw [h2 hri]
      simp
    · rw [if_pos hhit, if_neg hri, if_pos ⟨hhit, hri⟩]
      have hpos : 1 ≤ s.res_index := Nat.one_le_iff_ne_zero.mpr hri
      refine ⟨?_, by omega, by omega⟩
      rw [List.map_append, h1]
      simp only [List.map_cons, List.map_nil]
      have : s.res_index + 1 - 1 = (s.res_index - 1) + 1 := by omega
      rw [this, List.range'_concat]
      congr 2
      omega
    -- close the snapshot-flag subgoal shape: nothing depends on pidx
  · have hri : 1 ≤ s.res_index := by
      rcases h3 with h0 | hp
      · exact absurd (by rw [h0]; exact Nat.zero_mod _) hhit
      · exact hp
    rw [if_neg hhit, if_neg (by simp [hhit])]
    exact ⟨h1, by omega, hri⟩

/-- Every terminating run of the run_profile loop, started from an
invariant state, ends in an invariant state with positive res_index. -/
lemma profLoop_inv (q : SimParams) (d : Derived) (each : ℕ) (psoc : ℝ) :
    ∀ (fuel : ℕ) (s : ProfState),
      s.twrites.map Prod.fst = List.range' 1 (s.res_index - 1) →
      (s.res_index = 0 → s.twrites = []) →
      (s.steps = 0 ∨ 1 ≤ s.res_index) →
      ∀ r, profLoop q d each psoc fuel s = some r →
        r.1.twrites.map Prod.fst = List.range' 1 (r.1.res_index - 1) ∧
        1 ≤ r.1.res_index := by
  intro fuel
  induction fuel with
  | zero =>
    intro s _ _ _ r hr
    simp [profLoop] at hr
  | succ n ih =>
    intro s h1 h2 h3 r hr
    rw [profLoop] at hr
    by_cases hp : potFun q d s.f ≤ q.vcut
    · rw [if_pos hp] at hr
      have hbody := profBody_inv q d each psoc (potFun q d s.f) (meanF q s.f) s h1 h2 h3
      have hr1 : r.1 = profBody q d each psoc (potFun q d s.f) (meanF q s.f) s := by
        have := (Option.some_injective _ hr)
        rw [← this]
      rw [hr1]
      exact ⟨hbody.1, hbody.2.2⟩
    · rw [if_neg hp] at hr
      have hbody := profBody_inv q d each psoc (potFun q d s.f) (meanF q s.f) s h1 h2 h3
      exact ih (profBody q d each psoc (potFun q d s.f) (meanF q s.f) s)
        hbody.1 hbody.2.1 (Or.inr hbody.2.2) r hr

/-- C4 amended: for every terminating run_profile call with a well-defined
cadence, the res_soc/res_pot write indices are exactly 1 .. R-1 followed by
R+1, where R is the final sampling counter; in particular index 0 is never
written and index R is skipped, so the arrays are not completely filled. -/
theorem c4_amended_write_trace (q : SimParams) (d : Derived) (each : ℕ) (psoc : ℝ)
    (fuel : ℕ) (_hc : q.time_steps / each ≠ 0) (r : ProfState × ℝ × ℝ)
    (hr : profLoop q d each psoc fuel (profInit q) = some r) :
    (r.1.twrites ++ [(r.1.res_index + 1, r.2.1, r.2.2)]).map Prod.fst =
      List.range' 1 (r.1.res_index - 1) ++ [r.1.res_index + 1] ∧
    1 ≤ r.1.res_index ∧
    ∀ e ∈ r.1.twrites ++ [(r.1.res_index + 1, r.2.1, r.2.2)], e.1 ≠ 0 := by
  have hinv := profLoop_inv q d each psoc fuel (profInit q)
    (by simp [profInit]) (by simp [profInit]) (Or.inl rfl) r hr
  refine ⟨?_, hinv.2, ?_⟩
  · rw [List.map_append, hinv.1]
    simp
  · intro e he
    rcases List.mem_append.mp he with hin | hlast
    · have : e.1 ∈ r.1.twrites.map Prod.fst := List.mem_map_of_mem Prod.fst hin
      rw [hinv.1] at this
      have := (List.mem_range'_1.mp this).1
      omega
    · have : e = (r.1.res_index + 1, r.2.1, r.2.2) := by simpa using hlast
      rw [this]
      simp

/-- The mean of the qc1 initial field is the seed value 1e-4. -/
lemma meanF_qc1_init : meanF qc1 (initField qc1) = 1e-4 := by
  simp [meanF, initField, qc1, Finset.sum_range_succ]

/-- The concrete qc1 profile run terminates on its first iteration: the
first cadence trigger only advances res_index, so the loop makes no
trajectory write and leaves res_index at 1. -/
lemma profLoop_qc1_eval :
    profLoop qc1 dp4 1 5 1 (profInit qc1) =
      some (⟨stepField qc1 dp4 (initField qc1), 1, 1, 0, []⟩, 1e-4, 0) := by
  simp only [profLoop, profInit]
  rw [potFun_qc1, meanF_qc1_init]
  rw [if_pos (by norm_num [qc1])]
  congr 1
  congr 1
  simp only [profBody]
  norm_num

/-- C4 counterexample: a concrete terminating run_profile call with
sample_count (each) = 1 whose only res_soc/res_pot write lands at index 2:
index 0 of the output arrays is never written, and the one write targets an
index beyond sample_count - 1, refuting the completely-filled claim at this
input. -/
theorem c4_counterexample_not_filled :
    writeIndices qc1 dp4 1 5 1 = some [2] ∧
    ¬(∀ l, writeIndices qc1 dp4 1 5 1 = some l →
        (∀ k, k < 1 → k ∈ l) ∧ (∀ k ∈ l, k < 1)) := by
  have h : writeIndices qc1 dp4 1 5 1 = some [2] := by
    rw [writeIndices, runProfileWrites, profLoop_qc1_eval]
    simp
  refine ⟨h, fun hcl => ?_⟩
  have h0 := (hcl [2] h).1 0 (by norm_num)
  simp at h0

/-- C4 witness for the amended theorem: on the concrete qc1 run the write
trace is range' 1 (R-1) plus the final write at R+1 and no write targets
index 0. -/
theorem c4_amended_write_trace_witness :
    ∃ r, profLoop qc1 dp4 1 5 1 (profInit qc1) = some r ∧
      ((r.1.twrites ++ [(r.1.res_index + 1, r.2.1, r.2.2)]).map Prod.fst =
        List.range' 1 (r.1.res_index - 1) ++ [r.1.res_index + 1] ∧
      1 ≤ r.1.res_index ∧
      ∀ e ∈ r.1.twrites ++ [(r.1.res_index + 1, r.2.1, r.2.2)], e.1 ≠ 0) :=
  ⟨_, profLoop_qc1_eval,
    c4_amended_write_trace qc1 dp4 1 5 1 (by decide) _ profLoop_qc1_eval⟩

/-! ## C5: the concentration field does not stay inside (0,1) -/

/-- The qc5 rate: geometry 2 and xi = 1 give c_rate = 3600. -/
lemma c_rate_qc5 : c_rateF qc5 0 = 3600 := by
  rw [c_rateF, Real.rpow_zero]
  norm_num [qc5, t_hour]

/-- The qc5 particle size: ten to the logell input is exactly 8, so the
square root argument is 16 and the particle size is 8. -/
lemma particle_qc5 : particle_size_map qc5 logellc5 0 = 8 := by
  rw [particle_size_map, c_rate_qc5, logellc5,
    Real.rpow_logb (by norm_num) (by norm_num) (by norm_num)]
  rw [show (8 : ℝ) * qc5.geometry_param * t_hour / 3600 = 16 by norm_num [qc5, t_hour]]
  rw [show (16 : ℝ) = 4 ^ 2 by norm_num, Real.sqrt_sq (by norm_num)]
  norm_num

/-- The qc5 surface area. -/
lemma surface_qc5 : dc5.surface_area = 1 / 2 := by
  rw [dc5]
  simp only [mapDerived]
  rw [particle_qc5]
  norm_num [qc5]

/-- The qc5 current density. -/
lemma ccd_qc5 : dc5.ccd = -(36 / 5) := by
  rw [dc5]
  simp only [mapDerived]
  rw [particle_qc5, c_rate_qc5]
  norm_num [qc5]

/-- faraday times the qc5 maximum capacity. -/
lemma fmc_qc5 : faraday * dc5.maximum_capacity = 3.6 := by
  rw [dc5]
  simp only [mapDerived]
  norm_num [qc5, faraday]

/-- The qc5 time step. -/
lemma time_step_qc5 : dc5.time_step = 1 := by
  rw [dc5]
  simp only [mapDerived]
  rw [particle_qc5, c_rate_qc5]
  norm_num [qc5]

/-- The qc5 space step. -/
lemma space_step_qc5 : dc5.space_step = 4 := by
  rw [dc5]
  simp only [mapDerived]
  rw [particle_qc5]
  norm_num [qc5]

/-- The qc5 discretisation constants. -/
lemma alpha_qc5 : alphaF dc5 = 1 / 32 := by
  rw [alphaF, time_step_qc5, space_step_qc5]
  norm_num

lemma beta_qc5 : betaF qc5 dc5 = 1 / 16 := by
  rw [betaF, time_step_qc5, space_step_qc5]
  norm_num [qc5]

lemma alpha0_qc5 : alpha0F dc5 = 17 / 16 := by
  rw [alpha0F, alpha_qc5]
  norm_num

lemma gamma0_qc5 : gamma0F dc5 = 15 / 16 := by
  rw [gamma0F, alpha_qc5]
  norm_num

lemma coefs1_qc5 : coefsF qc5 dc5 1 = 1 / 17 := by
  simp only [coefsF]
  rw [alpha_qc5, alpha0_qc5]
  norm_num

lemma add1_qc5 : addF qc5 dc5 1 = 3 / 64 := by
  rw [addF, positionF, alpha_qc5, beta_qc5, space_step_qc5]
  norm_num

/-- The qc5 initial field is the constant 1e-4. -/
lemma initField_qc5 (i : ℕ) : initField qc5 i = 1e-4 := by
  simp [initField, qc5]

/-- The qc5 right-hand side at the centre node. -/
lemma gammaV0_qc5 : gammaV qc5 dc5 (initField qc5) 0 = 1e-4 := by
  rw [gammaV, if_neg (by decide), if_pos rfl]
  rw [initField_qc5, initField_qc5, gamma0_qc5, alpha_qc5]
  norm_num

/-- The qc5 right-hand side at the surface node: the imposed-current term
contributes exactly 3/2. -/
lemma gammaV1_qc5 : gammaV qc5 dc5 (initField qc5) 1 = 1e-4 + 3 / 2 := by
  rw [gammaV, if_pos (by decide)]
  rw [show qc5.grid_size - 1 = 1 from rfl, show qc5.grid_size - 2 = 0 from rfl]
  rw [initField_qc5, initField_qc5, gamma0_qc5, alpha_qc5, add1_qc5, space_step_qc5,
    ccd_qc5, fmc_qc5]
  norm_num

/-- The qc5 forward-sweep intercept at index 1. -/
lemma intercepts1_qc5 : interceptsF qc5 dc5 (initField qc5) 1 = 1 / 10625 := by
  simp only [interceptsF]
  rw [gammaV0_qc5, alpha0_qc5]
  norm_num

/-- After one qc5 time step the surface concentration is 17/12 + 1e-4,
strictly above 1. -/
lemma step_qc5_surface : stepField qc5 dc5 (initField qc5) 1 = 17 / 12 + 1e-4 := by
  rw [stepField, show qc5.grid_size - 1 - 1 = 0 from rfl, backSubF, newSurfaceF]
  rw [show qc5.grid_size - 1 = 1 from rfl]
  rw [gammaV1_qc5, intercepts1_qc5, alpha_qc5, alpha0_qc5, coefs1_qc5]
  norm_num

/-- Rational bounds on the qc5 thermal voltage. -/
lemma rf_qc5_lb : (0.0256 : ℝ) ≤ rfaraday qc5 := by
  rw [rfaraday]
  norm_num [qc5, gas_constant, faraday]

lemma rf_qc5_ub : rfaraday qc5 ≤ 0.0257 := by
  rw [rfaraday]
  norm_num [qc5, gas_constant, faraday]

lemma rf_qc5_nonneg : (0 : ℝ) ≤ rfaraday qc5 :=
  le_trans (by norm_num) rf_qc5_lb

/-- Lower bound on the qc5 exchange current density at the seed SOC. -/
lemma i0_qc5_lb : (0.0324 : ℝ) ≤ i0F dc5 1e-4 := by
  rw [i0F, fmc_qc5]
  have h : (0.009 : ℝ) ≤ Real.sqrt (1e-4 * (1.0 - 1e-4)) := by
    rw [show (1e-4 : ℝ) * (1.0 - 1e-4) = 9.999e-5 by norm_num]
    rw [Real.le_sqrt (by norm_num) (by norm_num)]
    norm_num
  calc (0.0324 : ℝ) = 3.6 * 0.009 := by norm_num
    _ ≤ 3.6 * Real.sqrt (1e-4 * (1.0 - 1e-4)) :=
        mul_le_mul_of_nonneg_left h (by norm_num)

/-- For nonnegative y the inverse hyperbolic sine is at most
log (2 y + 1). -/
lemma arsinh_le_log_linear (y : ℝ) (hy : 0 ≤ y) :
    Real.arsinh y ≤ Real.log (2 * y + 1) := by
  have hs : Real.sqrt (1 + y ^ 2) ≤ 1 + y := by
    rw [show (1 : ℝ) + y = Real.sqrt ((1 + y) ^ 2) from
      (Real.sqrt_sq (by positivity)).symm]
    apply Real.sqrt_le_sqrt
    nlinarith
  have hpos : (0 : ℝ) < y + Real.sqrt (1 + y ^ 2) := by
    have h1 : (0 : ℝ) < Real.sqrt (1 + y ^ 2) := Real.sqrt_pos.mpr (by positivity)
    linarith
  rw [Real.arsinh]
  apply Real.log_le_log hpos
  linarith

/-- The qc5 overpotential argument is bounded below by -1000/9, so its
inverse hyperbolic sine is at least -6. -/
lemma arsinh_qc5_lb : (-6 : ℝ) ≤ Real.arsinh (dc5.ccd / (2.0 * i0F dc5 1e-4)) := by
  have hi0 := i0_qc5_lb
  have hi0pos : (0 : ℝ) < 2.0 * i0F dc5 1e-4 := by linarith
  have hx : -(1000 / 9 : ℝ) ≤ dc5.ccd / (2.0 * i0F dc5 1e-4) := by
    rw [ccd_qc5, neg_div]
    apply neg_le_neg
    rw [div_le_iff₀ hi0pos]
    nlinarith
  have h1 : Real.arsinh (-(1000 / 9 : ℝ)) ≤ Real.arsinh (dc5.ccd / (2.0 * i0F dc5 1e-4)) :=
    Real.arsinh_le_arsinh.mpr hx
  have h2 : Real.arsinh (-(1000 / 9 : ℝ)) = -Real.arsinh (1000 / 9 : ℝ) :=
    Real.arsinh_neg _
  have h3 : Real.arsinh (1000 / 9 : ℝ) ≤ 6 := by
    apply le_trans (arsinh_le_log_linear (1000 / 9) (by norm_num))
    rw [Real.log_le_iff_le_exp (by norm_num)]
    have hexp : (2.7 : ℝ) ^ 6 ≤ Real.exp 6 := by
      have he1 : (2.7 : ℝ) ≤ Real.exp 1 :=
        le_of_lt (lt_of_lt_of_le (by norm_num) (le_of_lt Real.exp_one_gt_d9))
      calc (2.7 : ℝ) ^ 6 ≤ Real.exp 1 ^ 6 := pow_le_pow_left₀ (by norm_num) he1 6
        _ = Real.exp 6 := by
            rw [← Real.exp_nat_mul]
            norm_num
    nlinarith
  linarith

/-- The qc5 voltage at the seed field is far above the cutoff -2. -/
lemma potFun_qc5_init_gt : qc5.vcut < potFun qc5 dc5 (initField qc5) := by
  rw [potFun, show qc5.grid_size - 1 = 1 from rfl, initField_qc5]
  rw [potEq, if_pos (show qc5.model = true from rfl)]
  rw [show qc5.g_pot = 200 from rfl, show qc5.vcut = -2 from rfl]
  have hlog : (0 : ℝ) ≤ Real.log ((1.0 - 1e-4) / 1e-4) := by
    apply Real.log_nonneg
    norm_num
  have harsinh := arsinh_qc5_lb
  have hrl := rf_qc5_lb
  have hru := rf_qc5_ub
  have hrf0 := rf_qc5_nonneg
  nlinarith [mul_nonneg hrf0 hlog, mul_le_mul_of_nonneg_left harsinh hrf0]

/-- The qc5 voltage at the field after one step is far below the cutoff:
the surface value 17/12 + 1e-4 makes the exchange current zero (square root
of a negative argument) and the Frumkin term strongly negative. -/
lemma potFun_qc5_step_le :
    potFun qc5 dc5 (stepField qc5 dc5 (initField qc5)) ≤ qc5.vcut := by
  rw [potFun, show qc5.grid_size - 1 = 1 from rfl, step_qc5_surface]
  have hi0 : i0F dc5 (17 / 12 + 1e-4) = 0 := by
    rw [i0F]
    rw [Real.sqrt_eq_zero'.mpr (by norm_num)]
    ring
  rw [hi0, show (2.0 : ℝ) * 0 = 0 by norm_num, div_zero, Real.arsinh_zero,
    mul_zero, add_zero]
  rw [potEq, if_pos (show qc5.model = true from rfl)]
  rw [show qc5.g_pot = 200 from rfl, show qc5.vcut = -2 from rfl]
  have hlog : Real.log ((1.0 - (17 / 12 + 1e-4)) / (17 / 12 + 1e-4)) ≤ 0 := by
    have he : ((1.0 : ℝ) - (17 / 12 + 1e-4)) / (17 / 12 + 1e-4) = -(12503 / 42503) := by
      norm_num
    rw [he, Real.log_neg_eq_log]
    exact Real.log_nonpos (by norm_num) (by norm_num)
  have hrl := rf_qc5_lb
  have hrf0 := rf_qc5_nonneg
  nlinarith [mul_nonneg hrf0 (neg_nonneg.mpr hlog)]

/-- The qc5 run: the loop body runs once above the cutoff, the second
voltage is below the cutoff, so the loop exits with previous_soc equal to
the field after one step. -/
lemma mapLoop_qc5 :
    mapLoop qc5 dc5 2 (initField qc5) = some (stepField qc5 dc5 (initField qc5)) := by
  rw [show (2 : ℕ) = 1 + 1 from rfl, mapLoop,
    if_neg (not_le.mpr potFun_qc5_init_gt), mapLoop,
    if_pos potFun_qc5_step_le]

/-- C5 counterexample: a valid spherical analytic run (qc5: geometry 2,
temperature 298, positive mass, density and capacity, interaction parameter
200, cutoff -2) terminates after one diffusion step with its terminal
reported field at 17/12 + 1e-4 > 1 at the surface node: the concentration
field does NOT remain strictly inside (0,1) at every time step of a run. -/
theorem c5_counterexample_field_escapes :
    ∃ F, mapLoop qc5 dc5 2 (initField qc5) = some F ∧ 1 < F (qc5.grid_size - 1) := by
  refine ⟨_, mapLoop_qc5, ?_⟩
  rw [show qc5.grid_size - 1 = 1 from rfl, step_qc5_surface]
  norm_num

/-- C5 amended: the initial seeding of the concentration field lies
strictly inside (0,1) — for the analytic model always, for the tabulated
model whenever the first breakpoint is in [0,1) — but the stepping updates
need not preserve the interval. -/
theorem c5_amended_initial_field_inside (q : SimParams)
    (h : q.model = true ∨ (0 ≤ q.soc_eq 0 ∧ q.soc_eq 0 < 1)) :
    ∀ i, 0 < initField q i ∧ initField q i < 1 := by
  intro i
  rw [initField]
  by_cases hq : q.model
  · rw [if_pos hq]
    norm_num
  · rw [if_neg hq]
    rcases h with hm | ⟨h0, h1⟩
    · exact absurd hm hq
    · by_cases hz : q.soc_eq 0 = 0.0
      · rw [if_pos hz]
        norm_num
      · rw [if_neg hz]
        have hz0 : q.soc_eq 0 ≠ 0 := by
          intro h0eq
          exact hz (by rw [h0eq]; norm_num)
        exact ⟨lt_of_le_of_ne h0 (Ne.symm hz0), h1⟩

/-- C5 amended witness: the qc5 initial field at node 0 is inside (0,1). -/
theorem c5_amended_initial_field_inside_witness :
    0 < initField qc5 0 ∧ initField qc5 0 < 1 :=
  c5_amended_initial_field_inside qc5 (Or.inl rfl) 0

end Galpynostatic
